import Mathlib

/-!
Shallow embedding of `msagent.py` (MS Agent `.acd` parser and playback engine).

Python strings are modelled as Lean `String`s.  `loadAcd` decodes the input file
with the single-byte ISO-8859-1 encoding, so every character reaching the parser
lies in the range U+0000 .. U+00FF; the character-class predicates below
(`pyIsSpace`, `pyIsDigit`, `pyIsWord`, `isLineBoundary`) reproduce the behaviour
of Python's `str.isspace`/`str.isdigit`/regex `\s`, `\w`/`str.splitlines`
exactly on that range.

Fallible Python code (statements that can raise) is modelled with
`Except String`; the error string names the Python exception.
-/

namespace MSAgent

/-- Python `str.isspace` (and regex `\s`), restricted to the ISO-8859-1 range:
TAB..CR (0x09-0x0D), FS..US (0x1C-0x1F), SPACE, NEL (0x85), NBSP (0xA0). -/
def pyIsSpace (c : Char) : Bool :=
  (0x09 ≤ c.toNat && c.toNat ≤ 0x0d) || (0x1c ≤ c.toNat && c.toNat ≤ 0x1f) ||
  c.toNat = 0x20 || c.toNat = 0x85 || c.toNat = 0xa0

/-- An ASCII decimal digit (the characters accepted by Python `int()` within
the ISO-8859-1 range). -/
def isAsciiDigit (c : Char) : Bool :=
  0x30 ≤ c.toNat && c.toNat ≤ 0x39

/-- Python `str.isdigit` character class on the ISO-8859-1 range: the ASCII
decimal digits together with the superscripts ¹ (0xB9), ² (0xB2), ³ (0xB3),
which have Unicode `Numeric_Type=Digit`. -/
def pyIsDigit (c : Char) : Bool :=
  isAsciiDigit c || c.toNat = 0xb2 || c.toNat = 0xb3 || c.toNat = 0xb9

/-- Python regex `\w` (Unicode word character: `str.isalnum` or underscore) on
the ISO-8859-1 range: ASCII alphanumerics, `_`, the Latin-1 letters
(ª µ º À-Ö Ø-ö ø-ÿ) and the numeric characters ¹ ² ³ ¼ ½ ¾. -/
def pyIsWord (c : Char) : Bool :=
  isAsciiDigit c || (0x41 ≤ c.toNat && c.toNat ≤ 0x5a) ||
  (0x61 ≤ c.toNat && c.toNat ≤ 0x7a) || c.toNat = 0x5f ||
  c.toNat = 0xaa || c.toNat = 0xb5 || c.toNat = 0xba ||
  c.toNat = 0xb2 || c.toNat = 0xb3 || c.toNat = 0xb9 ||
  c.toNat = 0xbc || c.toNat = 0xbd || c.toNat = 0xbe ||
  (0xc0 ≤ c.toNat && c.toNat ≤ 0xff && c.toNat ≠ 0xd7 && c.toNat ≠ 0xf7)

/-- Line boundaries recognised by Python `str.splitlines` in the ISO-8859-1
range: LF, VT, FF, CR, FS, GS, RS, NEL.  (`\r\n` is treated as one boundary by
`splitlinesAux` below; US 0x1F is whitespace but not a line boundary.) -/
def isLineBoundary (c : Char) : Bool :=
  c.toNat = 0x0a || c.toNat = 0x0b || c.toNat = 0x0c || c.toNat = 0x0d ||
  c.toNat = 0x1c || c.toNat = 0x1d || c.toNat = 0x1e || c.toNat = 0x85

/-- Drop characters satisfying `p` from both ends of a list (Python `str.strip`
with the character class `p`). -/
def stripList (p : Char → Bool) (l : List Char) : List Char :=
  ((l.dropWhile p).reverse.dropWhile p).reverse

/-- Python `str.strip()` (no argument: strip whitespace). -/
def pyStrip (s : String) : String :=
  ⟨stripList pyIsSpace s.data⟩

/-- Python `str.strip('"')`: remove all leading and trailing double-quote
characters. -/
def stripQuotes (s : String) : String :=
  ⟨stripList (fun c => c = '"') s.data⟩

/-- Helper for `pySplitlines`: split on line boundaries, pairing `\r\n`.
Python emits the pending segment at a boundary always, and at end of input only
when it is nonempty (`"".splitlines() = []`, `"a\n".splitlines() = ["a"]`). -/
def splitlinesAux : List Char → List Char → List String
  | [], acc => if acc.isEmpty then [] else [⟨acc.reverse⟩]
  | '\r' :: '\n' :: rest2, acc => ⟨acc.reverse⟩ :: splitlinesAux rest2 []
  | c :: rest, acc =>
    if isLineBoundary c then ⟨acc.reverse⟩ :: splitlinesAux rest []
    else splitlinesAux rest (c :: acc)

/-- Python `str.splitlines()`. -/
def pySplitlines (s : String) : List String :=
  splitlinesAux s.data []

/-- A value stored in the dynamic document dictionary built by `parseAcd`:
a Python `int` (only non-negative integers are ever produced, see `_parseVal`),
a `str`, a nested block `dict`, or a `list` created by `_addChild` promotion. -/
inductive Val : Type where
  | vint : Nat → Val
  | vstr : String → Val
  | vnode : List (String × Val) → Val
  | vlist : List Val → Val
  deriving Repr

mutual

/-- Decidable equality on `Val` (the deriving handler does not support this
nested inductive). -/
def decEqVal : (a b : Val) → Decidable (a = b)
  | .vint x, .vint y =>
    match Nat.decEq x y with
    | isTrue h => isTrue (by rw [h])
    | isFalse h => isFalse (by intro hh; cases hh; exact h rfl)
  | .vstr x, .vstr y =>
    match String.decEq x y with
    | isTrue h => isTrue (by rw [h])
    | isFalse h => isFalse (by intro hh; cases hh; exact h rfl)
  | .vnode x, .vnode y =>
    match decEqNode x y with
    | isTrue h => isTrue (by rw [h])
    | isFalse h => isFalse (by intro hh; cases hh; exact h rfl)
  | .vlist x, .vlist y =>
    match decEqValList x y with
    | isTrue h => isTrue (by rw [h])
    | isFalse h => isFalse (by intro hh; cases hh; exact h rfl)
  | .vint _, .vstr _ => isFalse (by intro h; cases h)
  | .vint _, .vnode _ => isFalse (by intro h; cases h)
  | .vint _, .vlist _ => isFalse (by intro h; cases h)
  | .vstr _, .vint _ => isFalse (by intro h; cases h)
  | .vstr _, .vnode _ => isFalse (by intro h; cases h)
  | .vstr _, .vlist _ => isFalse (by intro h; cases h)
  | .vnode _, .vint _ => isFalse (by intro h; cases h)
  | .vnode _, .vstr _ => isFalse (by intro h; cases h)
  | .vnode _, .vlist _ => isFalse (by intro h; cases h)
  | .vlist _, .vint _ => isFalse (by intro h; cases h)
  | .vlist _, .vstr _ => isFalse (by intro h; cases h)
  | .vlist _, .vnode _ => isFalse (by intro h; cases h)

/-- Decidable equality on node entry lists. -/
def decEqNode : (a b : List (String × Val)) → Decidable (a = b)
  | [], [] => isTrue rfl
  | [], _ :: _ => isFalse (by intro h; cases h)
  | _ :: _, [] => isFalse (by intro h; cases h)
  | (k1, v1) :: r1, (k2, v2) :: r2 =>
    match String.decEq k1 k2, decEqVal v1 v2, decEqNode r1 r2 with
    | isTrue h1, isTrue h2, isTrue h3 => isTrue (by rw [h1, h2, h3])
    | isFalse h1, _, _ => isFalse (by intro h; cases h; exact h1 rfl)
    | _, isFalse h2, _ => isFalse (by intro h; cases h; exact h2 rfl)
    | _, _, isFalse h3 => isFalse (by intro h; cases h; exact h3 rfl)

/-- Decidable equality on value lists. -/
def decEqValList : (a b : List Val) → Decidable (a = b)
  | [], [] => isTrue rfl
  | [], _ :: _ => isFalse (by intro h; cases h)
  | _ :: _, [] => isFalse (by intro h; cases h)
  | v1 :: r1, v2 :: r2 =>
    match decEqVal v1 v2, decEqValList r1 r2 with
    | isTrue h1, isTrue h2 => isTrue (by rw [h1, h2])
    | isFalse h1, _ => isFalse (by intro h; cases h; exact h1 rfl)
    | _, isFalse h2 => isFalse (by intro h; cases h; exact h2 rfl)

end

instance : DecidableEq Val := decEqVal

/-- A Python `dict` with string keys, modelled as an association list with
unique keys; insertion order is preserved as in CPython dicts. -/
abbrev Node := List (String × Val)

/-- Python `dict.get(k)` / `dict[k]` lookup. -/
def getKey (n : Node) (k : String) : Option Val :=
  match n with
  | [] => none
  | (k2, v) :: rest => if k2 = k then some v else getKey rest k

/-- Python `dict[k] = v`: overwrite in place (keeping the key's position, as
CPython does) or append a new key. -/
def setKey (n : Node) (k : String) (v : Val) : Node :=
  match n with
  | [] => [(k, v)]
  | (k2, v2) :: rest => if k2 = k then (k, v) :: rest else (k2, v2) :: setKey rest k v

/-- Python truthiness of a dictionary value (`if soundEffect:` etc.). -/
def pyTruthy : Val → Bool
  | .vint n => n != 0
  | .vstr s => !s.isEmpty
  | .vnode n => !n.isEmpty
  | .vlist l => !l.isEmpty

/-- Numeric value of a list of ASCII decimal digits, most significant first. -/
def natOfDigits (l : List Char) : Nat :=
  l.foldl (fun a c => a * 10 + (c.toNat - 48)) 0

/-- Python `str.isdigit()`: nonempty and every character a digit
(per `pyIsDigit`, which on ISO-8859-1 also accepts ¹ ² ³). -/
def pyIsdigitStr (s : String) : Bool :=
  !s.data.isEmpty && s.data.all pyIsDigit

/-- Python `int(s)` as invoked by `_parseVal` (only on `isdigit`-true strings):
succeeds exactly when every character is an ASCII decimal digit; on the
superscript digits ¹ ² ³ (which `isdigit` accepts) it raises `ValueError`. -/
def pyIntStr (s : String) : Except String Nat :=
  if !s.data.isEmpty && s.data.all isAsciiDigit then .ok (natOfDigits s.data)
  else .error "invalid literal for int"

/-- Model of `_parseVal` (msagent.py lines 13-17):
`value = value.strip().strip('"'); if value.isdigit(): return int(value); return value`. -/
def _parseVal (value : String) : Except String Val :=
  let v := stripQuotes (pyStrip value)
  if pyIsdigitStr v then (pyIntStr v).map .vint
  else .ok (.vstr v)

/-- Python `'…'.replace("Define", "")`: remove every non-overlapping
occurrence of `Define`, scanning left to right.  This models
`startMatch.group(1).replace("Define", "")` (msagent.py line 45), which
removes ALL occurrences of `Define`, not just the leading one. -/
def removeDefine : List Char → List Char
  | 'D' :: 'e' :: 'f' :: 'i' :: 'n' :: 'e' :: rest => removeDefine rest
  | c :: rest => c :: removeDefine rest
  | [] => []

/-- Model of the match of `startBlockPattern = ^\s*(Define\w+)(?:\s+(.*))?$`
against a line, returning (group 1, optional group 2).  `\w+` and `\s+` are
greedy and no backtracking can produce a different match (after the maximal
word run, only whitespace or end of line can follow for the pattern to
succeed). -/
def matchStart (line : String) : Option (String × Option String) :=
  let l := line.data.dropWhile pyIsSpace
  if l.take 6 = "Define".data then
    let rest := l.drop 6
    let w := rest.takeWhile pyIsWord
    if w.isEmpty then none
    else
      match rest.dropWhile pyIsWord with
      | [] => some (⟨"Define".data ++ w⟩, none)
      | c :: cs =>
        if pyIsSpace c then
          some (⟨"Define".data ++ w⟩, some ⟨(c :: cs).dropWhile pyIsSpace⟩)
        else none
  else none

/-- Model of the match test of `endBlockPattern = ^\s*(End\w+)\s*$`. -/
def matchEnd (line : String) : Bool :=
  let l := line.data.dropWhile pyIsSpace
  if l.take 3 = "End".data then
    let rest := l.drop 3
    !(rest.takeWhile pyIsWord).isEmpty && (rest.dropWhile pyIsWord).all pyIsSpace
  else false

/-- Model of the match of `propertyPattern = ^\s*(\w+)\s*=\s*(.*)$`, returning
(key, raw value).  The greedy `\w+`/`\s*` runs admit no alternative match. -/
def matchProp (line : String) : Option (String × String) :=
  let l := line.data.dropWhile pyIsSpace
  let k := l.takeWhile pyIsWord
  if k.isEmpty then none
  else
    match (l.dropWhile pyIsWord).dropWhile pyIsSpace with
    | '=' :: rest => some (⟨k⟩, ⟨rest.dropWhile pyIsSpace⟩)
    | _ => none

/-- Model of `_addChild` (msagent.py lines 20-27): first child under a key is
stored as a scalar; a second child promotes the slot to a list `[old, child]`;
later children append to the list. -/
def _addChild (parent : Node) (key : String) (child : Node) : Node :=
  match getKey parent key with
  | none => setKey parent key (.vnode child)
  | some (.vlist l) => setKey parent key (.vlist (l ++ [.vnode child]))
  | some old => setKey parent key (.vlist [old, .vnode child])

/-!
The Python parser keeps a stack of (name, dict) pairs; `_addChild` attaches the
new (still empty) child dict to its parent dict at block-start time and the
child is then mutated in place while it is on top of the stack.  A pure
encoding cannot alias, so we defer the `_addChild` attachment to the matching
pop (block end, or the implicit pop of still-open blocks at end of input).
This is observationally equivalent: between the push and the pop of a child,
no line can read or write the parent (only the top of the stack is accessed),
so the state of `parent[key]` that `_addChild` inspects is the same at push
time and at pop time, and per-parent attachment order (the order in which the
parent's children are closed) equals Python's push order, since a sibling can
only be opened after the previous sibling was closed.
-/

/-- Pop the top stack entry, attaching the finished child to its parent. -/
def popAttach (top : String × Node) (parent : String × Node) : String × Node :=
  (parent.1, _addChild parent.2 top.1 top.2)

/-- Process one raw input line exactly as the loop body of `parseAcd`
(msagent.py lines 38-68) does, transforming the block stack (top of stack at
the head; the synthetic root is the last element). -/
def processLine (stack : List (String × Node)) (line : String) :
    Except String (List (String × Node)) :=
  let l := pyStrip line
  if l.isEmpty || l.data.take 2 = ['/', '/'] then .ok stack
  else
    match matchStart l with
    | some (g1, arg) =>
      let blockType : String := ⟨removeDefine g1.data⟩
      match arg with
      | some a =>
        if !a.isEmpty then
          match _parseVal a with
          | .error e => .error e
          | .ok v => .ok ((blockType, [("id", v)]) :: stack)
        else .ok ((blockType, ([] : Node)) :: stack)
      | none => .ok ((blockType, ([] : Node)) :: stack)
    | none =>
      if matchEnd l then
        match stack with
        | top :: parent :: rest => .ok (popAttach top parent :: rest)
        | s => .ok s
      else
        match matchProp l with
        | some (k, raw) =>
          match _parseVal raw with
          | .error e => .error e
          | .ok v =>
            match stack with
            | (n, obj) :: rest => .ok ((n, setKey obj k v) :: rest)
            | [] => .ok []
        | none => .ok stack

/-- Helper for `flushStack`: fold the current top into successive parents. -/
def flushAux : (String × Node) → List (String × Node) → Node
  | cur, [] => cur.2
  | cur, parent :: rest => flushAux (popAttach cur parent) rest

/-- Implicit pop of all still-open blocks at end of input (in Python they are
already attached; see the note above `popAttach`). -/
def flushStack : List (String × Node) → Node
  | [] => []
  | cur :: rest => flushAux cur rest

/-- Model of `parseAcd` (msagent.py lines 30-70). -/
def parseAcd (text : String) : Except String Node := do
  let stack ← (pySplitlines text).foldlM processLine [("root", ([] : Node))]
  .ok (flushStack stack)

/-- Model of `_asList` (msagent.py lines 81-87).  Note that when the stored
value is a Python list this returns the list object itself (an alias into the
document tree), which is what makes the in-place `reverse()` in
`_composeFrame` mutate the tree. -/
def _asList (data : Node) (key : String) : List Val :=
  match getKey data key with
  | none => []
  | some (.vlist l) => l
  | some v => [v]

/-- Code-point lexicographic comparison of character lists: Python's `<=` on
`str` (a proper prefix is smaller). -/
def strLeList : List Char → List Char → Bool
  | [], _ => true
  | _ :: _, [] => false
  | c :: cs, d :: ds =>
    if c.toNat < d.toNat then true
    else if d.toNat < c.toNat then false
    else strLeList cs ds

/-- Python `<=` on strings. -/
def pyStrLe (a b : String) : Bool :=
  strLeList a.data b.data

/-- Python `sorted` on a list of strings: the ascending permutation under the
code-point lexicographic order (for a total order the sorted permutation is
unique, so any correct sort models `sorted`). -/
def pySorted (l : List String) : List String :=
  l.insertionSort (fun a b => pyStrLe a b = true)

/-- Model of `listAnimations` (msagent.py lines 90-96).  The loop hits
`animation.get(...)` on each entry, which raises `AttributeError` if the entry
is not a dict; an entry's id is collected iff it is a truthy (nonempty)
string (`if name and isinstance(name, str)`); the collected names are then
sorted. -/
def listAnimations (acdData : Node) : Except String (List String) :=
  match go (_asList acdData "Animation") [] with
  | .error e => .error e
  | .ok names => .ok (pySorted names)
where
  go : List Val → List String → Except String (List String)
  | [], acc => .ok acc
  | .vnode n :: rest, acc =>
    match getKey n "id" with
    | some (.vstr s) => if !s.isEmpty then go rest (acc ++ [s]) else go rest acc
    | _ => go rest acc
  | _ :: _, _ => .error "AttributeError"

/-- Model of `getAnimationData` (msagent.py lines 99-103): linear search for
the first Animation entry whose `id` equals the requested name (Python `==`
between a non-string value and a string is `False`); `{}` if none matches. -/
def getAnimationData (acdData : Node) (animationName : String) : Except String Node :=
  go (_asList acdData "Animation")
where
  go : List Val → Except String Node
  | [] => .ok []
  | .vnode n :: rest =>
    if getKey n "id" = some (.vstr animationName) then .ok n else go rest
  | _ :: _ => .error "AttributeError"

/-- Outbound playback events of `AnimationWorker` (signals `imageReady`,
`playSoundSignal`, `animationFinished`).  The bitmap payload of `imageReady`
is abstracted away; the emission condition (`not img.isNull()`) is modelled
exactly. -/
inductive Event : Type where
  | frameReady : Event
  | playSound : String → Event
  | finished : Event
  deriving DecidableEq, Repr

/-!
IEEE-754 double-precision model for the wait computation.  Python runs
`int((rawDuration * 10) / self.speed)`: the (exact) Python int `rawDuration*10`
is first converted to a double (`PyLong_AsDouble`: round to nearest, ties to
even; `OverflowError` when the rounded value would reach 2^1024), that double
is divided by the float `speed` (IEEE division: the exact quotient rounded to
nearest-even, overflowing silently to infinity, underflowing gradually through
the subnormals), and `int()` truncates the finite quotient toward zero — or
raises `OverflowError` on an infinite one.  Doubles are represented here as
(mantissa, exponent) pairs over `ℕ`/`ℤ` — value `m * 2^(e-52)`, normal for
`2^52 ≤ m < 2^53`, subnormal at `e = -1022` with `m < 2^52` — so that all
arithmetic is integer arithmetic and evaluates inside the kernel.  `speed` is
the exact rational value of the Python float (a double). -/

/-- Fuelled floor-log2 on naturals (`natLog2 n` is exact for `n ≥ 1`). -/
def natLog2Aux : ℕ → ℕ → ℕ
  | 0, _ => 0
  | fuel + 1, n => if n ≤ 1 then 0 else natLog2Aux fuel (n / 2) + 1

/-- Floor of log2 of a positive natural. -/
def natLog2 (n : ℕ) : ℕ :=
  natLog2Aux n n

/-- Round the rational `a / b` (with `b > 0`) to the nearest integer, ties to
even. -/
def rhe (a b : ℕ) : ℕ :=
  let q := a / b
  let r := a % b
  if 2 * r < b then q
  else if b < 2 * r then q + 1
  else if q % 2 = 0 then q else q + 1

/-- Floor of log2 of the positive rational `a / b`. -/
def ratLog2 (a b : ℕ) : ℤ :=
  let e0 : ℤ := (natLog2 a : ℤ) - (natLog2 b : ℤ)
  if 0 ≤ e0 then
    (if b * 2 ^ e0.toNat ≤ a then e0 else e0 - 1)
  else
    (if b ≤ a * 2 ^ (-e0).toNat then e0 else e0 - 1)

/-- Round the positive rational `a / b` to the nearest IEEE double, returned
as a (mantissa, exponent) pair of value `m * 2^(e-52)`; `none` on overflow
(the rounded magnitude reaches `2^1024`). -/
def roundPosDouble (a b : ℕ) : Option (ℕ × ℤ) :=
  let e := ratLog2 a b
  if e < -1022 then
    some (rhe (a * 2 ^ 1074) b, -1022)
  else
    let m := if e ≤ 52 then rhe (a * 2 ^ (52 - e).toNat) b else rhe a (b * 2 ^ (e - 52).toNat)
    if m = 2 ^ 53 then
      (if 1023 < e + 1 then none else some (2 ^ 52, e + 1))
    else
      (if 1023 < e then none else some (m, e))

/-- Truncation toward zero of the magnitude `m * 2^(e-52)` (what `int()` does
to a finite non-negative double). -/
def truncMag (m : ℕ) (e : ℤ) : ℕ :=
  if 0 ≤ e - 52 then m * 2 ^ (e - 52).toNat else m / 2 ^ (52 - e).toNat

/-- The exact rational value of the (mantissa, exponent) pair. -/
def fpMagVal (m : ℕ) (e : ℤ) : ℚ :=
  if 0 ≤ e - 52 then (m : ℚ) * ((2 ^ (e - 52).toNat : ℕ) : ℚ)
  else (m : ℚ) / ((2 ^ (52 - e).toNat : ℕ) : ℚ)

/-- Python `float(n)` for a non-negative int `n` (`PyLong_AsDouble`):
round-to-nearest-even, `OverflowError` for `n ≥ 2^1024 - 2^970`. -/
def pyFloatNat (n : ℕ) : Except String (ℕ × ℤ) :=
  if n = 0 then .ok (0, -1022)
  else
    match roundPosDouble n 1 with
    | some me => .ok me
    | none => .error "OverflowError"

/-- IEEE division of the non-negative double `(m1, e1)` by the (nonzero)
float `speed`, followed by Python `int()`: the exact quotient is rounded to
the nearest double and truncated toward zero; a quotient that overflows to
infinity makes `int()` raise `OverflowError`. -/
def floatDivTrunc (m1 : ℕ) (e1 : ℤ) (speed : ℚ) : Except String ℤ :=
  if m1 = 0 then .ok 0
  else
    let a := m1 * speed.den * (if 0 ≤ e1 - 52 then 2 ^ (e1 - 52).toNat else 1)
    let b := speed.num.natAbs * (if 0 ≤ e1 - 52 then 1 else 2 ^ (52 - e1).toNat)
    match roundPosDouble a b with
    | some (m2, e2) => .ok ((if speed.num < 0 then -1 else 1) * (truncMag m2 e2 : ℤ))
    | none => .error "OverflowError"

/-- Model of the wait computation of `_playAnimation` (msagent.py lines
191-193): `rawDuration = frame.get("Duration", self.defaultDuration);
msDuration = int((rawDuration * 10) / self.speed); msleep(max(10, msDuration))`.
A non-integer duration raises `TypeError` at the division; the int operand is
then converted to a double (possibly raising `OverflowError`); `speed = 0`
raises `ZeroDivisionError`; the IEEE quotient is truncated by `int()`
(raising `OverflowError` if it overflowed to infinity) and clamped to a floor
of 10. -/
def frameWaitMs (frame : Node) (defaultDuration : Val) (speed : ℚ) : Except String ℤ :=
  match (getKey frame "Duration").getD defaultDuration with
  | .vint d =>
    match pyFloatNat (d * 10) with
    | .error e => .error e
    | .ok (m1, e1) =>
      if speed = 0 then .error "ZeroDivisionError"
      else
        match floatDivTrunc m1 e1 speed with
        | .error e => .error e
        | .ok ms => .ok (max 10 ms)
  | _ => .error "TypeError"

/-- Model of `_composeFrame` (msagent.py lines 195-222), restricted to what is
observable in the embedding: the draw order and the resulting state of the
frame node.  `images = _asList(frame, "Image")` returns the stored list object
itself when the value is a list, and `images.reverse()` then reverses it IN
PLACE, so composing returns the frame with its stored `Image` sequence
reversed; for a scalar (or absent) `Image` child, `_asList` builds a fresh
list and the frame is left unchanged. -/
def _composeFrame (frame : Node) : List Val × Node :=
  match getKey frame "Image" with
  | some (.vlist l) => (l.reverse, setKey frame "Image" (.vlist l.reverse))
  | some v => ([v], frame)
  | none => ([], frame)

/-- Whether one draw-order entry resolves to a cached image
(`imageEntry.get("Filename", "") in self._imageCache`); a non-dict entry
raises `AttributeError` at `imageEntry.get`.  `cache` is the set of filenames
that `_preloadImages` found on disk and decoded — disk contents are external,
so the cache is a parameter of the playback model. -/
def imageResolves (cache : List String) : Val → Except String Bool
  | .vnode n =>
    match getKey n "Filename" with
    | some (.vstr s) => .ok (cache.contains s)
    | some _ => .ok false
    | none => .ok (cache.contains "")
  | _ => .error "AttributeError"

/-- The composed bitmap is non-null iff some layer resolved.  The compositing
loop visits every entry (it does not stop at the first resolvable layer), so a
non-dict entry anywhere in the list raises. -/
def frameEmitsAux (cache : List String) : List Val → Bool → Except String Bool
  | [], acc => .ok acc
  | v :: rest, acc =>
    match imageResolves cache v with
    | .error e => .error e
    | .ok b => frameEmitsAux cache rest (acc || b)

/-- Events produced by one iteration of the frame loop of `_playAnimation`
(msagent.py lines 180-193): a `frameReady` if the composed image is non-null,
then a `playSound` if the frame has a truthy `SoundEffect`, then the timed
wait (whose computation can raise).  On an error path the events already
emitted before the exception are not tracked; no claim depends on them. -/
def frameEvents (cache : List String) (speed : ℚ) (defaultDuration : Val) (frame : Node) :
    Except String (List Event) :=
  match frameEmitsAux cache (_composeFrame frame).1 false with
  | .error e => .error e
  | .ok emits =>
    let evs1 := if emits then [Event.frameReady] else []
    let sound : Except String (List Event) :=
      match getKey frame "SoundEffect" with
      | none => .ok []
      | some v =>
        if pyTruthy v then
          match v with
          | .vstr s => .ok [Event.playSound s]
          | _ => .error "TypeError"
        else .ok []
    match sound with
    | .error e => .error e
    | .ok evs2 =>
      match frameWaitMs frame defaultDuration speed with
      | .error e => .error e
      | .ok _ => .ok (evs1 ++ evs2)

/-!
The cooperative cancellation flag `self._running` is written only by `stop()`
(which sets it to `False`, never back), and read at three places: the `while`
condition in `run`, the per-animation check in `run`'s `for` loop, and the
per-frame check in `_playAnimation`.  We model the reads as consulting a pure
function `flag : ℕ → Bool` at successive read indices; each loop below
therefore returns, besides its events, the number of flag reads it consumed.

The in-place `Image` reversal performed by `_composeFrame` (see above) is not
threaded through the playback state: it permutes a frame's stored `Image` list
but changes no key, no entry and no other slot, and every decision the
playback loop takes (emission, sound, duration) is invariant under permutation
of that list, so the event trace is unaffected.
-/

/-- One iteration block of the frame loop: flag check, then frame events. -/
def playFrames (cache : List String) (speed : ℚ) (defaultDuration : Val)
    (flag : ℕ → Bool) : List Val → ℕ → Except String (List Event × ℕ)
  | [], _ => .ok ([], 0)
  | f :: rest, idx =>
    if flag idx then
      match f with
      | .vnode frame =>
        match frameEvents cache speed defaultDuration frame with
        | .error e => .error e
        | .ok evs =>
          match playFrames cache speed defaultDuration flag rest (idx + 1) with
          | .error e => .error e
          | .ok (evs2, c) => .ok (evs ++ evs2, c + 1)
      | _ => .error "AttributeError"
    else .ok ([], 1)

/-- Model of `_playAnimation` (msagent.py lines 173-193): resolve the
animation, return immediately when the result is the (falsy) empty dict,
otherwise play the frame list. -/
def _playAnimation (data : Node) (cache : List String) (speed : ℚ) (defaultDuration : Val)
    (flag : ℕ → Bool) (animationName : String) (idx : ℕ) : Except String (List Event × ℕ) :=
  match getAnimationData data animationName with
  | .error e => .error e
  | .ok anim =>
    if anim.isEmpty then .ok ([], 0)
    else playFrames cache speed defaultDuration flag (_asList anim "Frame") idx

/-- The `for animationName in self.animations` loop of `run` (msagent.py
lines 165-167), with its per-animation flag check. -/
def animLoop (data : Node) (cache : List String) (speed : ℚ) (defaultDuration : Val)
    (flag : ℕ → Bool) : List String → ℕ → Except String (List Event × ℕ)
  | [], _ => .ok ([], 0)
  | name :: rest, idx =>
    if flag idx then
      match _playAnimation data cache speed defaultDuration flag name (idx + 1) with
      | .error e => .error e
      | .ok (evs, c) =>
        match animLoop data cache speed defaultDuration flag rest (idx + 1 + c) with
        | .error e => .error e
        | .ok (evs2, c2) => .ok (evs ++ evs2, 1 + c + c2)
    else .ok ([], 1)

/-- Model of the default-duration lookup at the top of `run` (msagent.py lines
155-158): `charData = self.data.get("Character", {})`, first element if it is
a list, then `charData.get("DefaultFrameDuration", 10)`. -/
def characterDefault (data : Node) : Except String Val :=
  match getKey data "Character" with
  | none => .ok (.vint 10)
  | some (.vnode n) => .ok ((getKey n "DefaultFrameDuration").getD (.vint 10))
  | some (.vlist (.vnode n :: _)) => .ok ((getKey n "DefaultFrameDuration").getD (.vint 10))
  | some (.vlist []) => .error "IndexError"
  | some (.vlist (_ :: _)) => .error "AttributeError"
  | some _ => .error "AttributeError"

mutual

/-- Whether every `Filename` value in a value subtree is a string.
`_preloadImages` walks the whole tree and calls `os.path.join` on every
`Filename` value it meets, raising `TypeError` on a non-string. -/
def filenamesOkV : Val → Bool
  | .vint _ => true
  | .vstr _ => true
  | .vnode n => filenamesOkN n
  | .vlist l => filenamesOkL l

/-- `filenamesOkV` on a node's entries. -/
def filenamesOkN : List (String × Val) → Bool
  | [] => true
  | (k, v) :: rest =>
    (k != "Filename" || (match v with | .vstr _ => true | _ => false)) &&
    filenamesOkV v && filenamesOkN rest

/-- `filenamesOkV` on a value list. -/
def filenamesOkL : List Val → Bool
  | [] => true
  | v :: rest => filenamesOkV v && filenamesOkL rest

end

/-- The monotone cancellation flag: `stop()` is called between the `stopAt`-th
and the following flag read (reads `0, 1, …, stopAt - 1` see `True`). -/
def flagOf (stopAt n : ℕ) : Bool :=
  n < stopAt

/-- The `while self._running` loop of `run` (msagent.py lines 160-169) for
`cycles ≠ -1`: on such inputs `cycles != -1 and loopCount >= cycles` reduces
to the comparison alone, which also bounds the recursion.  (For `cycles = -1`
the loop can only end through the flag; see `outerInf`.) -/
def outerBounded (data : Node) (anims : List String) (cache : List String) (speed : ℚ)
    (defaultDuration : Val) (cycles : ℤ) (flag : ℕ → Bool) (loopCount : ℕ) (idx : ℕ) :
    Except String (List Event) :=
  if flag idx then
    if (loopCount : ℤ) ≥ cycles then .ok []
    else
      match animLoop data cache speed defaultDuration flag anims (idx + 1) with
      | .error e => .error e
      | .ok (evs, c) =>
        match outerBounded data anims cache speed defaultDuration cycles flag
            (loopCount + 1) (idx + 1 + c) with
        | .error e => .error e
        | .ok evs2 => .ok (evs ++ evs2)
  else .ok []
termination_by (cycles - loopCount).toNat
decreasing_by simp_wf; omega

/-- The `while self._running` loop of `run` for `cycles = -1` (unbounded
repetition): the pass check `cycles != -1 and …` is always false, so the loop
ends only when a flag read returns `False`; the flag is the monotone
`flagOf stopAt`, and each pass consumes at least the `while`-condition read,
which bounds the recursion by `stopAt`. -/
def outerInf (data : Node) (anims : List String) (cache : List String) (speed : ℚ)
    (defaultDuration : Val) (stopAt : ℕ) (idx : ℕ) : Except String (List Event) :=
  if idx < stopAt then
    match animLoop data cache speed defaultDuration (flagOf stopAt) anims (idx + 1) with
    | .error e => .error e
    | .ok (evs, c) =>
      match outerInf data anims cache speed defaultDuration stopAt (idx + 1 + c) with
      | .error e => .error e
      | .ok evs2 => .ok (evs ++ evs2)
  else .ok []
termination_by stopAt - idx
decreasing_by simp_wf; omega

/-- Model of `AnimationWorker.run` (msagent.py lines 152-171) for
`cycles ≠ -1`: preload (which raises on a non-string `Filename` anywhere in
the tree), default-duration lookup, the outer loop, then the single
`animationFinished` emission after the loop. -/
def runBounded (data : Node) (anims : List String) (cache : List String) (speed : ℚ)
    (cycles : ℤ) (flag : ℕ → Bool) : Except String (List Event) :=
  if !filenamesOkN data then .error "TypeError"
  else
    match characterDefault data with
    | .error e => .error e
    | .ok defaultDuration =>
      match outerBounded data anims cache speed defaultDuration cycles flag 0 0 with
      | .error e => .error e
      | .ok evs => .ok (evs ++ [Event.finished])

/-- Model of `AnimationWorker.run` for `cycles = -1`, with `stop()` called
before the `stopAt`-th flag read. -/
def runInf (data : Node) (anims : List String) (cache : List String) (speed : ℚ)
    (stopAt : ℕ) : Except String (List Event) :=
  if !filenamesOkN data then .error "TypeError"
  else
    match characterDefault data with
    | .error e => .error e
    | .ok defaultDuration =>
      match outerInf data anims cache speed defaultDuration stopAt 0 with
      | .error e => .error e
      | .ok evs => .ok (evs ++ [Event.finished])

/-- Well-formedness of one frame entry for crash-free playback at the given
default duration and speed: it is a dict, its `Image` entries are dicts, its
`SoundEffect` (if truthy) is a string, and its wait computation succeeds —
this last condition covers a non-integer duration (`TypeError`), a duration
too large for a double or a quotient overflowing to infinity
(`OverflowError`), and a zero speed (`ZeroDivisionError`). -/
def frameOk (defaultDuration : Val) (speed : ℚ) (f : Val) : Bool :=
  match f with
  | .vnode frame =>
    ((_asList frame "Image").all fun i => match i with | .vnode _ => true | _ => false) &&
    (match getKey frame "SoundEffect" with
     | none => true
     | some (.vstr _) => true
     | some v => !pyTruthy v) &&
    (match frameWaitMs frame defaultDuration speed with
     | .ok _ => true
     | .error _ => false)
  | _ => false

/-- Well-formedness of one Animation entry: a dict whose frames are all
`frameOk`. -/
def animOk (defaultDuration : Val) (speed : ℚ) (a : Val) : Bool :=
  match a with
  | .vnode anim => (_asList anim "Frame").all (frameOk defaultDuration speed)
  | _ => false

/-- Well-formedness of a document for crash-free playback at the given speed:
preload succeeds (all `Filename` values are strings), the Character default
lookup succeeds, and all Animation entries are well-formed dicts whose frame
wait computations all succeed.  Documents produced from actual `.acd` text
with realistic durations and speeds satisfy this; `parseAcd` can in principle
also produce trees that violate it (for example an `Animation = 5` property
line, or an astronomically large `Duration` that overflows the double
conversion). -/
def WFplay (data : Node) (speed : ℚ) : Bool :=
  filenamesOkN data &&
  (match characterDefault data with
   | .ok dd => (_asList data "Animation").all (animOk dd speed)
   | .error _ => false)

/-!  Spec-side reference definitions, written from the (amended) spec wording,
to be compared with the embedded source functions above. -/

/-- Animation-name collection as the amended spec for `listAnimations` words
it: the ids of the Animation-type children at the document root, normalized to
a sequence, keeping exactly the entries that are blocks with a nonempty string
id. -/
def animationIds (data : Node) : List String :=
  (_asList data "Animation").filterMap fun a =>
    match a with
    | .vnode n =>
      match getKey n "id" with
      | some (.vstr s) => if s.isEmpty then none else some s
      | _ => none
    | _ => none

/-- Animation lookup as the spec words it: the first animation in the
normalized root-level Animation sequence whose id equals the requested name. -/
def findAnimation (data : Node) (name : String) : Option Node :=
  (_asList data "Animation").findSome? fun a =>
    match a with
    | .vnode n => if getKey n "id" = some (.vstr name) then some n else none
    | _ => none

/-- The scalar-parsing rule as amended: trim surrounding whitespace, then strip
ALL leading and trailing double-quote characters; if the remainder is nonempty
and consists entirely of ASCII decimal digits it is the corresponding
non-negative integer; if it is nonempty, all (Unicode) digit characters, but
not all ASCII decimal, integer conversion raises; otherwise the remainder is
kept as a string. -/
def parseValSpec (value : String) : Except String Val :=
  let t := stripList (fun c => c = '"') (stripList pyIsSpace value.data)
  if t = [] then .ok (.vstr ⟨t⟩)
  else if t.all isAsciiDigit then .ok (.vint (natOfDigits t))
  else if t.all pyIsDigit then .error "invalid literal for int"
  else .ok (.vstr ⟨t⟩)

/-!  ## General lemmas -/

instance {ε α : Type} [DecidableEq ε] [DecidableEq α] : DecidableEq (Except ε α) := fun a b =>
  match a, b with
  | .ok x, .ok y =>
    match decEq x y with
    | isTrue h => isTrue (by rw [h])
    | isFalse h => isFalse (by intro hh; cases hh; exact h rfl)
  | .error x, .error y =>
    match decEq x y with
    | isTrue h => isTrue (by rw [h])
    | isFalse h => isFalse (by intro hh; cases hh; exact h rfl)
  | .ok _, .error _ => isFalse (by intro h; cases h)
  | .error _, .ok _ => isFalse (by intro h; cases h)

theorem getKey_setKey_self (n : Node) (k : String) (v : Val) :
    getKey (setKey n k v) k = some v := by
  induction n with
  | nil => simp [setKey, getKey]
  | cons p rest ih =>
    by_cases h : p.1 = k <;> simp [setKey, getKey, h, ih]

theorem isDigit_pyIsDigit {c : Char} (h : isAsciiDigit c = true) : pyIsDigit c = true := by
  simp [pyIsDigit, h]

/-!  ## Claim C1 -/

/-- C1: refuted by the code — `_composeFrame` mutates the document tree.  For
a frame whose stored `Image` child is the two-element sequence `[a, b]`, one
composition leaves the stored sequence reversed to `[b, a]` (so the next cycle
over the same frame observes the opposite layer order), and a second
composition flips it back: the stored sequence alternates instead of staying
unchanged. -/
theorem composeFrame_mutates_stored_images :
    (_composeFrame [("Image", Val.vlist [Val.vnode [("Filename", Val.vstr "a.bmp")],
        Val.vnode [("Filename", Val.vstr "b.bmp")]])]).2
      = [("Image", Val.vlist [Val.vnode [("Filename", Val.vstr "b.bmp")],
          Val.vnode [("Filename", Val.vstr "a.bmp")]])]
    ∧ (_composeFrame [("Image", Val.vlist [Val.vnode [("Filename", Val.vstr "a.bmp")],
        Val.vnode [("Filename", Val.vstr "b.bmp")]])]).2
      ≠ [("Image", Val.vlist [Val.vnode [("Filename", Val.vstr "a.bmp")],
          Val.vnode [("Filename", Val.vstr "b.bmp")]])]
    ∧ (_composeFrame (_composeFrame [("Image", Val.vlist
        [Val.vnode [("Filename", Val.vstr "a.bmp")],
         Val.vnode [("Filename", Val.vstr "b.bmp")]])]).2).2
      = [("Image", Val.vlist [Val.vnode [("Filename", Val.vstr "a.bmp")],
          Val.vnode [("Filename", Val.vstr "b.bmp")]])] := by
  refine ⟨rfl, ?_, rfl⟩
  decide

/-!  ## Claim C3 -/

/-- C3 counterexample: `_parseVal` does not strip exactly one layer of
surrounding double quotes — it strips them all.  On the input `""42""` the
claim as stated predicts the string `"42"` (one layer stripped, the remainder
not all digits), but the code strips both layers and returns the integer
42. -/
theorem parseVal_quote_counterexample :
    _parseVal "\"\"42\"\"" = .ok (.vint 42)
    ∧ _parseVal "\"\"42\"\"" ≠ .ok (.vstr "\"42\"") := by
  exact ⟨rfl, by decide⟩

/-- C3 (amended): `_parseVal` trims surrounding whitespace, strips ALL leading
and trailing double-quote characters, then: a nonempty all-ASCII-digit
remainder becomes a non-negative integer; a nonempty remainder of digit
characters that are not all ASCII decimal (the ISO-8859-1 superscripts) makes
integer conversion raise; any other remainder is returned as a string.  The
documented examples behave as stated: `"42"` parses to the integer 42, `-42`
to the string `-42`, `hi there` to the string `hi there`. -/
theorem parseVal_amended_spec :
    (∀ value : String, _parseVal value = parseValSpec value)
    ∧ _parseVal "42" = .ok (.vint 42)
    ∧ _parseVal "-42" = .ok (.vstr "-42")
    ∧ _parseVal "hi there" = .ok (.vstr "hi there") := by
  refine ⟨?_, rfl, rfl, rfl⟩
  intro value
  unfold _parseVal parseValSpec pyIsdigitStr pyIntStr pyStrip stripQuotes
  set t := stripList (fun c => c = '"') (stripList pyIsSpace value.data) with ht
  by_cases h1 : t = []
  · simp [h1]
  · by_cases h2 : t.all pyIsDigit
    · by_cases h3 : t.all isAsciiDigit
      · simp [h1, h2, h3, List.isEmpty_iff, Except.map]
      · simp [h1, h2, h3, List.isEmpty_iff, Except.map]
    · have h3 : ¬ t.all isAsciiDigit = true := by
        intro hh
        exact h2 (by
          rw [List.all_eq_true] at hh ⊢
          exact fun c hc => isDigit_pyIsDigit (hh c hc))
      simp [h1, h2, h3, List.isEmpty_iff]

/-!  ## Claim C7 -/

/-- C7: refuted by the code — `parseAcd` is not total.  On the single line
`x = ²` (the superscript-two byte 0xB2, representable in the ISO-8859-1
input encoding), the value satisfies `str.isdigit` but `int()` rejects it, so
the parser raises `ValueError` instead of skipping or storing the line. -/
theorem parseAcd_raises_on_superscript_digit :
    parseAcd "x = ²" = .error "invalid literal for int" := rfl

/-!  ## Character-class and list helper lemmas -/

theorem pyIsWord_not_space {c : Char} (h : pyIsWord c = true) : pyIsSpace c = false := by
  simp [pyIsWord, pyIsSpace, isAsciiDigit] at *
  omega

theorem pyIsWord_not_boundary {c : Char} (h : pyIsWord c = true) :
    isLineBoundary c = false := by
  simp [pyIsWord, isLineBoundary, isAsciiDigit] at *
  omega

theorem takeWhile_all {p : Char → Bool} {l : List Char} (h : l.all p = true) :
    l.takeWhile p = l := by
  induction l with
  | nil => rfl
  | cons c cs ih => simp_all

theorem dropWhile_all {p : Char → Bool} {l : List Char} (h : l.all p = true) :
    l.dropWhile p = [] := by
  induction l with
  | nil => rfl
  | cons c cs ih => simp_all

theorem dropWhile_head_neg {p : Char → Bool} {l : List Char}
    (h : ∀ c, l.head? = some c → p c = false) : l.dropWhile p = l := by
  cases l with
  | nil => rfl
  | cons c cs => simp [List.dropWhile_cons, h c rfl]

theorem takeWhile_append_neg {p : Char → Bool} {l1 l2 : List Char}
    (h1 : l1.all p = true) (h2 : ∀ c, l2.head? = some c → p c = false) :
    (l1 ++ l2).takeWhile p = l1 := by
  induction l1 with
  | nil =>
    cases l2 with
    | nil => rfl
    | cons c cs => simp [List.takeWhile_cons, h2 c rfl]
  | cons c cs ih => simp_all

theorem dropWhile_append_neg {p : Char → Bool} {l1 l2 : List Char}
    (h1 : l1.all p = true) (h2 : ∀ c, l2.head? = some c → p c = false) :
    (l1 ++ l2).dropWhile p = l2 := by
  induction l1 with
  | nil => exact dropWhile_head_neg h2
  | cons c cs ih => simp_all

theorem stripList_id {p : Char → Bool} {l : List Char}
    (h1 : ∀ c, l.head? = some c → p c = false)
    (h2 : ∀ c, l.getLast? = some c → p c = false) : stripList p l = l := by
  unfold stripList
  rw [dropWhile_head_neg h1, dropWhile_head_neg (by simpa using h2), List.reverse_reverse]

/-!  ## Claim C5 -/

/-- C5: for every parent node and block-type name, attaching the first child
under that name stores it as a scalar child; attaching a second child under
the same name promotes the slot to an ordered sequence `[old, new]`, and later
children append, so insertion order is preserved.  Concretely, parsing
`DefineA/EndA` twice under the same parent yields `A` as a two-element
sequence in source order, while nested `DefineA/DefineB` yields scalar
children. -/
theorem addChild_scalar_then_promote :
    (∀ (p : Node) (k : String) (c : Node), getKey p k = none →
        getKey (_addChild p k c) k = some (.vnode c))
    ∧ (∀ (p : Node) (k : String) (c : Node) (old : Val), getKey p k = some old →
        (∀ l, old ≠ .vlist l) →
        getKey (_addChild p k c) k = some (.vlist [old, .vnode c]))
    ∧ (∀ (p : Node) (k : String) (c : Node) (l : List Val),
        getKey p k = some (.vlist l) →
        getKey (_addChild p k c) k = some (.vlist (l ++ [.vnode c])))
    ∧ parseAcd "DefineA 1\nEndA\nDefineA 2\nEndA"
        = .ok [("A", .vlist [.vnode [("id", .vint 1)], .vnode [("id", .vint 2)]])]
    ∧ parseAcd "DefineA\nEndA\nDefineA\nEndA"
        = .ok [("A", .vlist [.vnode [], .vnode []])]
    ∧ parseAcd "DefineA\nDefineB\nEndB\nEndA"
        = .ok [("A", .vnode [("B", .vnode [])])] := by
  refine ⟨?_, ?_, ?_, rfl, rfl, rfl⟩
  · intro p k c h
    simp [_addChild, h, getKey_setKey_self]
  · intro p k c old h hnl
    rcases old with n | s | nd | l
    · simp [_addChild, h, getKey_setKey_self]
    · simp [_addChild, h, getKey_setKey_self]
    · simp [_addChild, h, getKey_setKey_self]
    · exact absurd rfl (hnl l)
  · intro p k c l h
    simp [_addChild, h, getKey_setKey_self]

/-- Witness for C5 at concrete inputs. -/
theorem addChild_scalar_then_promote_witness :
    getKey (_addChild [] "A" []) "A" = some (.vnode [])
    ∧ getKey (_addChild [("A", .vnode [])] "A" [("id", .vint 2)]) "A"
        = some (.vlist [.vnode [], .vnode [("id", .vint 2)]])
    ∧ getKey (_addChild [("A", .vlist [.vnode []])] "A" []) "A"
        = some (.vlist [.vnode [], .vnode []]) :=
  ⟨addChild_scalar_then_promote.1 [] "A" [] rfl,
   addChild_scalar_then_promote.2.1 [("A", .vnode [])] "A" [("id", .vint 2)] (.vnode []) rfl
     (fun _ h => by cases h),
   addChild_scalar_then_promote.2.2.1 [("A", .vlist [.vnode []])] "A" [] [.vnode []] rfl⟩

/-!  ## Claim C6 -/

theorem getLast?_word_not_space {name : String} (h2 : name.data.all pyIsWord = true) :
    ∀ c, name.data.getLast? = some c → pyIsSpace c = false := by
  intro c hc
  have hmem := List.mem_of_getLast?_eq_some hc
  rw [List.all_eq_true] at h2
  exact pyIsWord_not_space (h2 c hmem)

theorem pyStrip_end_name (name : String) (h1 : name.data ≠ [])
    (h2 : name.data.all pyIsWord = true) :
    pyStrip ("End" ++ name) = "End" ++ name := by
  apply String.ext
  show stripList pyIsSpace ("End" ++ name).data = ("End" ++ name).data
  rw [String.data_append]
  apply stripList_id
  · intro c hc
    simp only [show ("End" : String).data = ['E', 'n', 'd'] from rfl] at hc
    simp at hc
    cases hc
    decide
  · intro c hc
    simp only [List.getLast?_append] at hc
    cases hg : name.data.getLast? with
    | none => exact absurd (List.getLast?_eq_none_iff.mp hg) h1
    | some d =>
      rw [hg] at hc
      simp at hc
      rw [hc] at hg
      exact getLast?_word_not_space h2 c hg

theorem matchStart_end_name (name : String) :
    matchStart ("End" ++ name) = none := by
  unfold matchStart
  rw [String.data_append]
  simp only [show ("End" : String).data = ['E', 'n', 'd'] from rfl]
  simp only [List.cons_append, List.nil_append]
  rw [dropWhile_head_neg (by intro c hc; simp at hc; cases hc; decide)]
  rw [if_neg (by simp [List.take_succ_cons])]

theorem matchEnd_end_name (name : String) (h1 : name.data ≠ [])
    (h2 : name.data.all pyIsWord = true) :
    matchEnd ("End" ++ name) = true := by
  unfold matchEnd
  rw [String.data_append]
  simp only [show ("End" : String).data = ['E', 'n', 'd'] from rfl]
  simp only [List.cons_append, List.nil_append]
  rw [dropWhile_head_neg (by intro c hc; simp at hc; cases hc; decide)]
  rw [if_pos (show List.take 3 ('E' :: 'n' :: 'd' :: name.data) = ("End" : String).data from rfl)]
  rw [show List.drop 3 ('E' :: 'n' :: 'd' :: name.data) = name.data from rfl]
  rw [takeWhile_all h2, dropWhile_all h2]
  simp [h1]

theorem processLine_ne_nil (stack : List (String × Node)) (line : String)
    (st2 : List (String × Node)) (h : processLine stack line = .ok st2)
    (hne : stack ≠ []) : st2 ≠ [] := by
  simp only [processLine] at h
  by_cases hskip :
      ((pyStrip line).isEmpty || decide (List.take 2 (pyStrip line).data = ['/', '/'])) = true
  · rw [if_pos hskip] at h
    cases h
    exact hne
  · rw [if_neg hskip] at h
    cases hs : matchStart (pyStrip line) with
    | some g =>
      rcases g with ⟨g1, arg⟩
      rw [hs] at h
      dsimp only at h
      cases arg with
      | some a =>
        dsimp only at h
        by_cases ha : (!a.isEmpty) = true
        · rw [if_pos ha] at h
          cases hpv : _parseVal a with
          | error e => rw [hpv] at h; cases h
          | ok v =>
            rw [hpv] at h
            cases h
            simp
        · rw [if_neg ha] at h
          cases h
          simp
      | none =>
        dsimp only at h
        cases h
        simp
    | none =>
      rw [hs] at h
      dsimp only at h
      by_cases hend : matchEnd (pyStrip line) = true
      · rw [if_pos hend] at h
        match stack, hne with
        | [x], _ =>
          cases h
          simp
        | x :: y :: r, _ =>
          cases h
          simp
      · rw [if_neg hend] at h
        cases hp : matchProp (pyStrip line) with
        | some kr =>
          rcases kr with ⟨k, raw⟩
          rw [hp] at h
          dsimp only at h
          cases hpv : _parseVal raw with
          | error e => rw [hpv] at h; cases h
          | ok v =>
            rw [hpv] at h
            match stack, hne with
            | (n, obj) :: rest, _ =>
              cases h
              simp
        | none =>
          rw [hp] at h
          dsimp only at h
          cases h
          exact hne

theorem processLine_end_at_root (name : String) (n : Node) (h1 : name.data ≠ [])
    (h2 : name.data.all pyIsWord = true) :
    processLine [("root", n)] ("End" ++ name) = .ok [("root", n)] := by
  have hdata : ("End" ++ name).data = 'E' :: 'n' :: 'd' :: name.data := by
    rw [String.data_append]
    simp [show ("End" : String).data = ['E', 'n', 'd'] from rfl]
  have hie : ("End" ++ name).isEmpty = false := by
    rw [Bool.eq_false_iff]
    intro hB
    have := (String.isEmpty_iff _).mp hB
    rw [this] at hdata
    cases hdata
  have htake : List.take 2 ("End" ++ name).data = ['E', 'n'] := by
    rw [hdata]
    rfl
  simp only [processLine]
  rw [pyStrip_end_name name h1 h2]
  rw [if_neg (by simp [hie, htake])]
  rw [matchStart_end_name name]
  dsimp only
  rw [if_pos (matchEnd_end_name name h1 h2)]

/-- C6: the parser's block stack never drops below the synthetic root: every
line transformation keeps the stack nonempty (an End line seen with only the
root left is ignored rather than popping); the name of an `End<Name>` line is
not validated (any nonempty word is accepted); and after an extra unmatched
End at top level, later property assignments still attach to the root without
raising. -/
theorem parser_stack_never_below_root :
    (∀ (stack : List (String × Node)) (line : String) (st2 : List (String × Node)),
        processLine stack line = .ok st2 → stack ≠ [] → st2 ≠ [])
    ∧ (∀ (name : String) (n : Node), name.data ≠ [] → name.data.all pyIsWord = true →
        processLine [("root", n)] ("End" ++ name) = .ok [("root", n)])
    ∧ parseAcd "DefineA\nEndA\nEndB\nx = 5"
        = .ok [("A", .vnode []), ("x", .vint 5)] :=
  ⟨processLine_ne_nil, processLine_end_at_root, rfl⟩

/-- Witness for C6: an unmatched `EndB` at the root is ignored. -/
theorem parser_stack_never_below_root_witness :
    processLine [("root", [])] ("End" ++ "B") = .ok [("root", [])]
    ∧ ([("root", ([] : Node))] : List (String × Node)) ≠ [] :=
  ⟨parser_stack_never_below_root.2.1 "B" [] (by decide) (by decide),
   parser_stack_never_below_root.1 [("root", [])] "junk" [("root", [])] rfl (by decide) ⟩

/-!  ## Claim C2 -/

theorem strLeList_total : ∀ a b : List Char, strLeList a b = true ∨ strLeList b a = true := by
  intro a
  induction a with
  | nil => intro b; left; rfl
  | cons c cs ih =>
    intro b
    cases b with
    | nil => right; rfl
    | cons d ds =>
      simp only [strLeList]
      rcases Nat.lt_trichotomy c.toNat d.toNat with h | h | h
      · left; simp [h]
      · rcases ih ds with h2 | h2
        · left; simp [h, h2]
        · right; simp [h, h2]
      · right; simp [h, Nat.lt_asymm h]

theorem strLeList_trans : ∀ a b c : List Char,
    strLeList a b = true → strLeList b c = true → strLeList a c = true := by
  intro a
  induction a with
  | nil => intro b c _ _; rfl
  | cons x xs ih =>
    intro b c hab hbc
    cases b with
    | nil => simp [strLeList] at hab
    | cons y ys =>
      cases c with
      | nil => simp [strLeList] at hbc
      | cons z zs =>
        simp only [strLeList] at hab hbc ⊢
        by_cases h1 : x.toNat < y.toNat
        · by_cases h2 : y.toNat < z.toNat
          · simp [show x.toNat < z.toNat by omega]
          · by_cases h3 : z.toNat < y.toNat
            · rw [if_neg h2, if_pos h3] at hbc; cases hbc
            · simp [show x.toNat < z.toNat by omega]
        · by_cases h4 : y.toNat < x.toNat
          · rw [if_neg h1, if_pos h4] at hab; cases hab
          · rw [if_neg h1, if_neg h4] at hab
            by_cases h2 : y.toNat < z.toNat
            · simp [show x.toNat < z.toNat by omega]
            · by_cases h3 : z.toNat < y.toNat
              · rw [if_neg h2, if_pos h3] at hbc; cases hbc
              · rw [if_neg h2, if_neg h3] at hbc
                rw [if_neg (by omega : ¬ x.toNat < z.toNat),
                  if_neg (by omega : ¬ z.toNat < x.toNat)]
                exact ih ys zs hab hbc

theorem listAnimations_go_ok (l : List Val) (acc : List String)
    (h : l.all (fun a => match a with | .vnode _ => true | _ => false) = true) :
    listAnimations.go l acc
    = .ok (acc ++ l.filterMap (fun a =>
        match a with
        | .vnode n =>
          match getKey n "id" with
          | some (.vstr s) => if s.isEmpty then none else some s
          | _ => none
        | _ => none)) := by
  induction l generalizing acc with
  | nil => simp [listAnimations.go]
  | cons a rest ih =>
    cases a with
    | vnode n =>
      simp only [List.all_cons, Bool.and_eq_true] at h
      cases hid : getKey n "id" with
      | none => simp [listAnimations.go, hid, ih _ h.2]
      | some v =>
        cases v with
        | vstr s =>
          by_cases hs : s.isEmpty
          · simp [listAnimations.go, hid, hs, ih _ h.2]
          · simp [listAnimations.go, hid, hs, ih _ h.2]
        | vint k => simp [listAnimations.go, hid, ih _ h.2]
        | vnode m => simp [listAnimations.go, hid, ih _ h.2]
        | vlist m => simp [listAnimations.go, hid, ih _ h.2]
    | vint k => simp at h
    | vstr s => simp at h
    | vlist m => simp at h

theorem getAnimationData_go_eq (name : String) (l : List Val)
    (h : l.all (fun a => match a with | .vnode _ => true | _ => false) = true) :
    getAnimationData.go name l
    = .ok ((l.findSome? (fun a =>
        match a with
        | .vnode n => if getKey n "id" = some (.vstr name) then some n else none
        | _ => none)).getD []) := by
  induction l with
  | nil => simp [getAnimationData.go]
  | cons a rest ih =>
    cases a with
    | vnode n =>
      simp only [List.all_cons, Bool.and_eq_true] at h
      by_cases hm : getKey n "id" = some (.vstr name)
      · simp [getAnimationData.go, hm, List.findSome?_cons]
      · simp [getAnimationData.go, hm, List.findSome?_cons, ih h.2]
    | vint k => simp at h
    | vstr s => simp at h
    | vlist m => simp at h

/-- C2 counterexample: `listAnimations` reads the `Animation` children of the
document ROOT, not those under the Character node.  For the parsed document
`DefineCharacter / DefineAnimation Wave / EndAnimation / EndCharacter`, the
animation with string id `Wave` sits under the Character node, yet
`listAnimations` returns the empty list rather than `["Wave"]`. -/
theorem listAnimations_counterexample :
    parseAcd "DefineCharacter\nDefineAnimation Wave\nEndAnimation\nEndCharacter"
      = .ok [("Character", .vnode [("Animation", .vnode [("id", .vstr "Wave")])])]
    ∧ listAnimations [("Character", .vnode [("Animation", .vnode [("id", .vstr "Wave")])])]
      = .ok []
    ∧ (Except.ok [] : Except String (List String)) ≠ .ok ["Wave"] :=
  ⟨rfl, rfl, by simp⟩

/-- C2 (amended): over the Animation-type children at the document ROOT
(siblings of the Character node, not children of it), `listAnimations` returns
the sorted sequence of the ids of the entries that are blocks with a truthy
(nonempty) string id, without enforcing uniqueness, and `getAnimationData`
returns the first entry in that same collection whose id equals the requested
name, or an empty node if none matches.  (The hypothesis that every Animation
entry is a block excludes trees on which the Python code would raise
`AttributeError`.) -/
theorem listAnimations_amended :
    (∀ data : Node,
      (_asList data "Animation").all
        (fun a => match a with | .vnode _ => true | _ => false) = true →
      listAnimations data = .ok (pySorted (animationIds data))
      ∧ ∀ name : String,
          getAnimationData data name = .ok ((findAnimation data name).getD []))
    ∧ (∀ l : List String, (pySorted l).Sorted (fun a b => pyStrLe a b = true)
        ∧ List.Perm (pySorted l) l)
    ∧ listAnimations [("Animation", .vlist [.vnode [("id", .vstr "Wave")],
        .vnode [("id", .vstr "Alpha")], .vnode [("id", .vint 7)], .vnode []])]
        = .ok ["Alpha", "Wave"]
    ∧ getAnimationData [("Animation", .vlist [.vnode [("id", .vstr "Wave")],
        .vnode [("id", .vstr "Alpha")]])] "Alpha" = .ok [("id", .vstr "Alpha")] := by
  refine ⟨?_, ?_, by rfl, by rfl⟩
  · intro data h
    constructor
    · unfold listAnimations
      rw [listAnimations_go_ok _ _ h]
      simp [animationIds]
    · intro name
      unfold getAnimationData
      exact getAnimationData_go_eq name _ h
  · intro l
    haveI : IsTotal String (fun a b => pyStrLe a b = true) :=
      ⟨fun a b => strLeList_total a.data b.data⟩
    haveI : IsTrans String (fun a b => pyStrLe a b = true) :=
      ⟨fun a b c => strLeList_trans a.data b.data c.data⟩
    exact ⟨List.sorted_insertionSort _ l, List.perm_insertionSort _ l⟩

/-- Witness for C2 at a concrete document. -/
theorem listAnimations_amended_witness :
    listAnimations [("Animation", .vnode [("id", .vstr "Wave")])]
      = .ok (pySorted (animationIds [("Animation", .vnode [("id", .vstr "Wave")])])) :=
  (listAnimations_amended.1 [("Animation", .vnode [("id", .vstr "Wave")])] (by decide)).1

/-!  ## Claim C4 -/

theorem truncMag_eq_floor (m : ℕ) (e : ℤ) : (truncMag m e : ℤ) = ⌊fpMagVal m e⌋ := by
  unfold truncMag fpMagVal
  by_cases h : 0 ≤ e - 52
  · rw [if_pos h, if_pos h]
    generalize 2 ^ (e - 52).toNat = k
    rw [show ((m : ℚ) * ((k : ℕ) : ℚ)) = (((m * k : ℕ) : ℤ) : ℚ) by push_cast; ring]
    rw [Int.floor_intCast]
  · rw [if_neg h, if_neg h]
    generalize 2 ^ (52 - e).toNat = k
    rw [show ((m : ℚ) / ((k : ℕ) : ℚ)) = (((m : ℤ) : ℚ) / ((k : ℕ) : ℚ)) by rw [Int.cast_natCast]]
    rw [Rat.floor_intCast_div_natCast]
    omega

/-- C4 counterexample: the wait is computed in double precision, not exact
arithmetic.  At duration 10000000000000001 and speed 1, converting
`d*10 = 100000000000000010` to a double rounds it up to 100000000000000016,
so the program waits 100000000000000016 ms while the claimed formula
`max(10, ⌊d*10/s⌋)` gives 100000000000000010. -/
theorem frameWait_formula_counterexample :
    frameWaitMs [("Duration", Val.vint 10000000000000001)] (Val.vint 10) 1
      = .ok 100000000000000016
    ∧ max 10 ⌊((10000000000000001 : ℕ) * 10 : ℚ) / 1⌋ = 100000000000000010
    ∧ (100000000000000016 : ℤ) ≠ 100000000000000010 := by
  refine ⟨by decide, ?_, by decide⟩
  norm_num

/-- C4 (amended): the scheduler computes the per-frame wait in IEEE
double-precision arithmetic: `d*10` (the frame's own integer `Duration` times
ten, or else the default) is converted to the nearest double — raising
`OverflowError` beyond the double range — then divided by the float speed
with a second rounding, and `int()` truncates the quotient, clamped to a
10 ms floor.  Whenever the two roundings return exact results (every
realistic duration; the hypotheses `hexact` and `hdiv` below), the wait
equals the claimed `max(10, ⌊d*10/s⌋)` milliseconds; a duration with
`d*10 > 2^53` can round away from it (see the counterexample). -/
theorem frameWait_double_rounding (frame : Node) (defaultDuration : Val) (d : ℕ)
    (s : ℚ) (m1 : ℕ) (e1 : ℤ)
    (hs : 0 < s)
    (hd : getKey frame "Duration" = some (.vint d)
        ∨ (getKey frame "Duration" = none ∧ defaultDuration = .vint d))
    (hconv : pyFloatNat (d * 10) = .ok (m1, e1))
    (hexact : fpMagVal m1 e1 = ((d * 10 : ℕ) : ℚ))
    (hdiv : floatDivTrunc m1 e1 s = .ok ⌊fpMagVal m1 e1 / s⌋) :
    frameWaitMs frame defaultDuration s = .ok (max 10 ⌊(d * 10 : ℚ) / s⌋) := by
  have hgoal : (⌊fpMagVal m1 e1 / s⌋ : ℤ) = ⌊(d * 10 : ℚ) / s⌋ := by
    rw [hexact]
    congr 1
    push_cast
    ring
  unfold frameWaitMs
  rcases hd with h | ⟨h, h2⟩
  · rw [h]
    simp only [Option.getD_some]
    rw [hconv]
    dsimp only
    rw [if_neg hs.ne', hdiv, hgoal]
  · rw [h]
    simp only [Option.getD_none]
    rw [h2]
    dsimp only
    rw [hconv]
    dsimp only
    rw [if_neg hs.ne', hdiv, hgoal]

/-- Witness for C4: duration 5, speed 1 — both roundings are exact
(`float(50) = 50 = 7036874417766400 * 2^-47`) and the wait is 50 ms. -/
theorem frameWait_double_rounding_witness :
    frameWaitMs [("Duration", Val.vint 5)] (Val.vint 10) 1
      = .ok (max 10 ⌊((5 : ℕ) * 10 : ℚ) / 1⌋)
    ∧ max 10 ⌊((5 : ℕ) * 10 : ℚ) / 1⌋ = 50 := by
  have hex : fpMagVal 7036874417766400 5 = ((5 * 10 : ℕ) : ℚ) := by
    norm_num [fpMagVal, show ((47 : ℤ)).toNat = 47 from rfl]
  constructor
  · apply frameWait_double_rounding [("Duration", Val.vint 5)] (Val.vint 10) 5 1
      7036874417766400 5 (by norm_num) (Or.inl (by decide)) (by decide) hex
    rw [hex, show ⌊((5 * 10 : ℕ) : ℚ) / 1⌋ = (50 : ℤ) by norm_num]
    decide
  · norm_num

/-!  ## Claim C9 -/

theorem getAnimationData_go_none (name : String) (l : List Val)
    (h : l.all (fun a =>
      match a with
      | .vnode n => decide (getKey n "id" ≠ some (.vstr name))
      | _ => false) = true) :
    getAnimationData.go name l = .ok [] := by
  induction l with
  | nil => rfl
  | cons a rest ih =>
    cases a with
    | vnode n =>
      simp only [List.all_cons, Bool.and_eq_true, decide_eq_true_eq] at h
      simp only [getAnimationData.go]
      rw [if_neg h.1]
      exact ih h.2
    | vint k => simp at h
    | vstr s => simp at h
    | vlist m => simp at h

/-- C9: when every Animation entry of the document is a block whose id differs
from the requested name (the name is absent), `getAnimationData` returns the
empty node, and `_playAnimation` on that name contributes zero frames: no
frame-ready and no play-sound events, no cancellation-flag reads, and no
error, so the playback loop simply continues. -/
theorem absent_animation_plays_nothing (data : Node) (name : String)
    (h : (_asList data "Animation").all (fun a =>
      match a with
      | .vnode n => decide (getKey n "id" ≠ some (.vstr name))
      | _ => false) = true) :
    getAnimationData data name = .ok []
    ∧ (∀ (cache : List String) (speed : ℚ) (defaultDuration : Val)
        (flag : ℕ → Bool) (idx : ℕ),
        _playAnimation data cache speed defaultDuration flag name idx = .ok ([], 0)) := by
  have hg : getAnimationData data name = .ok [] := by
    unfold getAnimationData
    exact getAnimationData_go_none name _ h
  refine ⟨hg, ?_⟩
  intro cache speed dd flag idx
  unfold _playAnimation
  rw [hg]
  simp

/-- Witness for C9: requesting `Wave` in a document that only has `Jump`. -/
theorem absent_animation_plays_nothing_witness :
    getAnimationData [("Animation", Val.vnode [("id", Val.vstr "Jump")])] "Wave" = .ok []
    ∧ _playAnimation [("Animation", Val.vnode [("id", Val.vstr "Jump")])] [] 1 (Val.vint 10)
        (fun _ => true) "Wave" 0 = .ok ([], 0) :=
  ⟨(absent_animation_plays_nothing
      [("Animation", Val.vnode [("id", Val.vstr "Jump")])] "Wave" (by decide)).1,
   (absent_animation_plays_nothing
      [("Animation", Val.vnode [("id", Val.vstr "Jump")])] "Wave" (by decide)).2
      [] 1 (Val.vint 10) (fun _ => true) 0⟩

/-!  ## Claim C10 -/

theorem splitlinesAux_no_boundary : ∀ (l acc : List Char),
    l.all (fun c => !isLineBoundary c) = true →
    splitlinesAux l acc
      = if (acc.reverse ++ l).isEmpty then [] else [⟨acc.reverse ++ l⟩] := by
  intro l
  induction l with
  | nil =>
    intro acc _
    rw [splitlinesAux.eq_1]
    simp
  | cons c rest ih =>
    intro acc h
    simp only [List.all_cons, Bool.and_eq_true, Bool.not_eq_true'] at h
    have hc : c ≠ '\r' := by
      intro hEq
      rw [hEq] at h
      exact absurd h.1 (by decide)
    rw [splitlinesAux.eq_3 acc c rest (fun rest2 hEq _ => hc hEq)]
    rw [if_neg (by simp [h.1])]
    rw [ih (c :: acc) h.2]
    simp

theorem pySplitlines_single (s : String) (hne : s.data ≠ [])
    (h : s.data.all (fun c => !isLineBoundary c) = true) :
    pySplitlines s = [s] := by
  unfold pySplitlines
  rw [splitlinesAux_no_boundary s.data [] h]
  simp [hne]

theorem pyStrip_id (s : String)
    (h1 : ∀ c, s.data.head? = some c → pyIsSpace c = false)
    (h2 : ∀ c, s.data.getLast? = some c → pyIsSpace c = false) :
    pyStrip s = s :=
  String.ext (stripList_id h1 h2)

theorem line_data_eq (w v : String) :
    ("Define" ++ w ++ " = " ++ v).data
      = 'D' :: 'e' :: 'f' :: 'i' :: 'n' :: 'e' ::
        (w.data ++ (' ' :: '=' :: ' ' :: v.data)) := by
  simp only [String.data_append]
  simp [show ("Define" : String).data = ['D', 'e', 'f', 'i', 'n', 'e'] from rfl,
    show (" = " : String).data = [' ', '=', ' '] from rfl]

theorem matchStart_define_line (w v : String)
    (hw1 : w.data ≠ []) (hw2 : w.data.all pyIsWord = true) :
    matchStart ("Define" ++ w ++ " = " ++ v)
      = some ("Define" ++ w, some ("= " ++ v)) := by
  unfold matchStart
  rw [line_data_eq]
  rw [dropWhile_head_neg (by intro c hc; simp at hc; cases hc; decide)]
  rw [if_pos (show List.take 6 ('D' :: 'e' :: 'f' :: 'i' :: 'n' :: 'e' ::
    (w.data ++ (' ' :: '=' :: ' ' :: v.data))) = ("Define" : String).data by
      simp [List.take_succ_cons])]
  rw [show List.drop 6 ('D' :: 'e' :: 'f' :: 'i' :: 'n' :: 'e' ::
    (w.data ++ (' ' :: '=' :: ' ' :: v.data))) = w.data ++ (' ' :: '=' :: ' ' :: v.data)
    from rfl]
  dsimp only
  rw [takeWhile_append_neg hw2 (by intro c hc; simp at hc; cases hc; decide)]
  rw [if_neg (by simp [hw1])]
  rw [dropWhile_append_neg hw2 (by intro c hc; simp at hc; cases hc; decide)]
  dsimp only
  rw [if_pos (by decide : pyIsSpace ' ' = true)]
  rw [show List.dropWhile pyIsSpace (' ' :: '=' :: ' ' :: v.data)
      = '=' :: ' ' :: v.data by
    rw [List.dropWhile_cons, if_pos (by decide : pyIsSpace ' ' = true),
      List.dropWhile_cons, if_neg (by decide : ¬ pyIsSpace '=' = true)]]
  constructor

theorem define_line_no_boundary (w v : String)
    (hw2 : w.data.all pyIsWord = true)
    (hv2 : v.data.all (fun c => !isLineBoundary c) = true) :
    ("Define" ++ w ++ " = " ++ v).data.all (fun c => !isLineBoundary c) = true := by
  rw [line_data_eq]
  simp only [List.all_cons, List.all_append, Bool.and_eq_true]
  refine ⟨by decide, by decide, by decide, by decide, by decide, by decide, ?_, by decide, by decide, by decide, hv2⟩
  rw [List.all_eq_true] at hw2 ⊢
  intro c hc
  simp [pyIsWord_not_boundary (hw2 c hc)]

theorem define_line_getLast (w v : String) (hv1 : v.data ≠ []) :
    ("Define" ++ w ++ " = " ++ v).data.getLast? = v.data.getLast? := by
  obtain ⟨c, hc⟩ : ∃ c, v.data.getLast? = some c := by
    cases hg : v.data.getLast? with
    | none => exact absurd (List.getLast?_eq_none_iff.mp hg) hv1
    | some c => exact ⟨c, rfl⟩
  rw [line_data_eq, hc]
  have : (w.data ++ (' ' :: '=' :: ' ' :: v.data)).getLast? = some c := by
    rw [List.getLast?_append]
    rw [show (' ' :: '=' :: ' ' :: v.data).getLast? = v.data.getLast? by
      rw [show ' ' :: '=' :: ' ' :: v.data = [' ', '=', ' '] ++ v.data from rfl]
      rw [List.getLast?_append, hc]
      rfl]
    rw [hc]
    rfl
  rw [show 'D' :: 'e' :: 'f' :: 'i' :: 'n' :: 'e' :: (w.data ++ (' ' :: '=' :: ' ' :: v.data))
    = ['D', 'e', 'f', 'i', 'n', 'e'] ++ (w.data ++ (' ' :: '=' :: ' ' :: v.data)) from rfl]
  rw [List.getLast?_append, this]
  rfl

theorem pyStrip_define_line (w v : String) (hv1 : v.data ≠ [])
    (hv3 : ∀ c, v.data.getLast? = some c → pyIsSpace c = false) :
    pyStrip ("Define" ++ w ++ " = " ++ v) = "Define" ++ w ++ " = " ++ v := by
  apply pyStrip_id
  · intro c hc
    rw [line_data_eq] at hc
    simp at hc
    cases hc
    decide
  · intro c hc
    rw [define_line_getLast w v hv1] at hc
    exact hv3 c hc

theorem processLine_define_line (w v : String)
    (hw1 : w.data ≠ []) (hw2 : w.data.all pyIsWord = true)
    (hv1 : v.data ≠ []) (hv3 : ∀ c, v.data.getLast? = some c → pyIsSpace c = false) :
    processLine [("root", [])] ("Define" ++ w ++ " = " ++ v)
      = match _parseVal ("= " ++ v) with
        | .error e => .error e
        | .ok idv => .ok [((⟨removeDefine ("Define" ++ w).data⟩ : String),
            [("id", idv)]), ("root", [])] := by
  have hie : ("Define" ++ w ++ " = " ++ v).isEmpty = false := by
    rw [Bool.eq_false_iff]
    intro hB
    have h0 := (String.isEmpty_iff _).mp hB
    have h1 := congrArg String.data h0
    rw [line_data_eq] at h1
    cases h1
  have htake : List.take 2 ("Define" ++ w ++ " = " ++ v).data = ['D', 'e'] := by
    rw [line_data_eq]
    rfl
  simp only [processLine]
  rw [pyStrip_define_line w v hv1 hv3]
  rw [if_neg (by simp [hie, htake])]
  rw [matchStart_define_line w v hw1 hw2]
  dsimp only
  rw [if_pos (show (!("= " ++ v).isEmpty) = true by
    rw [Bool.not_eq_true']
    rw [Bool.eq_false_iff]
    intro hB
    have h0 := (String.isEmpty_iff _).mp hB
    have h1 := congrArg String.data h0
    rw [String.data_append] at h1
    cases h1)]

/-- C10 (amended): for every line of the form `Define<w> = <v>` (with `w` a
nonempty word and `v` a nonempty value with no line boundaries or trailing
whitespace), the parser treats the line as a block start, not a property
assignment (the block-start shape is tried first): it opens a child block
whose name is the matched word with EVERY occurrence of the substring
`Define` removed (not just the leading prefix), and the remainder of the line
including the `=` sign — the text `= <v>` — is parsed as that block's id. -/
theorem define_word_assignment_is_block (w v : String)
    (hw1 : w.data ≠ []) (hw2 : w.data.all pyIsWord = true)
    (hv1 : v.data ≠ []) (hv2 : v.data.all (fun c => !isLineBoundary c) = true)
    (hv3 : ∀ c, v.data.getLast? = some c → pyIsSpace c = false) :
    parseAcd ("Define" ++ w ++ " = " ++ v)
      = (_parseVal ("= " ++ v)).map
          (fun idv => [((⟨removeDefine ("Define" ++ w).data⟩ : String),
            Val.vnode [("id", idv)])]) := by
  unfold parseAcd
  rw [pySplitlines_single _ (by rw [line_data_eq]; simp)
    (define_line_no_boundary w v hw2 hv2)]
  rw [show List.foldlM processLine [("root", ([] : Node))] ["Define" ++ w ++ " = " ++ v]
    = processLine [("root", [])] ("Define" ++ w ++ " = " ++ v) >>= fun st =>
        pure st from by
    rw [List.foldlM_cons]
    congr 1]
  rw [processLine_define_line w v hw1 hw2 hv1 hv3]
  cases hpv : _parseVal ("= " ++ v) with
  | error e => rfl
  | ok idv => rfl

/-- C10 counterexample: a `Define`-prefixed word on a property-shaped line is
indeed treated as a block start, but the block is NOT named by the text after
the `Define` prefix: `group(1).replace("Define", "")` removes every
occurrence, so `DefineDefineX = 3` opens a block named `X`, not `DefineX`. -/
theorem define_define_counterexample :
    parseAcd "DefineDefineX = 3" = .ok [("X", Val.vnode [("id", Val.vstr "= 3")])]
    ∧ parseAcd "DefineDefineX = 3" ≠ .ok [("DefineX", Val.vnode [("id", Val.vstr "= 3")])] :=
  ⟨rfl, by decide⟩

/-- Witness for C10 at `DefineX = 3`. -/
theorem define_word_assignment_is_block_witness :
    parseAcd ("Define" ++ "X" ++ " = " ++ "3")
      = (_parseVal ("= " ++ "3")).map
          (fun idv => [((⟨removeDefine ("Define" ++ "X").data⟩ : String),
            Val.vnode [("id", idv)])])
    ∧ parseAcd "DefineX = 3" = .ok [("X", Val.vnode [("id", Val.vstr "= 3")])] :=
  ⟨define_word_assignment_is_block "X" "3" (by decide) (by decide) (by decide) (by decide)
      (by intro c hc; simp at hc; subst hc; decide),
   rfl⟩

/-!  ## Claim C8 -/

theorem frameEmitsAux_ok (cache : List String) (l : List Val)
    (h : l.all (fun i => match i with | .vnode _ => true | _ => false) = true) :
    ∀ acc, ∃ b, frameEmitsAux cache l acc = .ok b := by
  induction l with
  | nil => intro acc; exact ⟨acc, rfl⟩
  | cons i rest ih =>
    intro acc
    cases i with
    | vnode n =>
      simp only [List.all_cons, Bool.and_eq_true] at h
      obtain ⟨b0, hb0⟩ : ∃ b0, imageResolves cache (Val.vnode n) = .ok b0 := by
        unfold imageResolves
        dsimp only
        cases hf : getKey n "Filename" with
        | none => exact ⟨_, rfl⟩
        | some v => cases v <;> exact ⟨_, rfl⟩
      obtain ⟨b, hb⟩ := ih h.2 (acc || b0)
      refine ⟨b, ?_⟩
      unfold frameEmitsAux
      rw [hb0]
      exact hb
    | vint k => simp at h
    | vstr s => simp at h
    | vlist m => simp at h

theorem composeFrame_draw_all (frame : Node)
    (h : (_asList frame "Image").all
      (fun i => match i with | .vnode _ => true | _ => false) = true) :
    ((_composeFrame frame).1).all
      (fun i => match i with | .vnode _ => true | _ => false) = true := by
  unfold _composeFrame _asList at *
  cases hk : getKey frame "Image" with
  | none => simp
  | some v =>
    rw [hk] at h
    cases v with
    | vlist l => simp at h ⊢; exact h
    | vint k => simp at h
    | vstr s => simp at h
    | vnode n => simp

theorem frameEvents_ok (cache : List String) (speed : ℚ) (dd : Val) (frame : Node)
    (hf : frameOk dd speed (.vnode frame) = true) :
    ∃ evs, frameEvents cache speed dd frame = .ok evs
      ∧ Event.finished ∉ evs := by
  simp only [frameOk, Bool.and_eq_true] at hf
  obtain ⟨⟨h1, h2⟩, h3⟩ := hf
  obtain ⟨emits, hem⟩ := frameEmitsAux_ok cache _ (composeFrame_draw_all frame h1) false
  have hwait : ∃ z, frameWaitMs frame dd speed = .ok z := by
    cases hw : frameWaitMs frame dd speed with
    | ok z => exact ⟨z, rfl⟩
    | error e => rw [hw] at h3; simp at h3
  obtain ⟨z, hz⟩ := hwait
  have hsound : ∃ evs2, (match getKey frame "SoundEffect" with
      | none => Except.ok []
      | some v =>
        if pyTruthy v then
          match v with
          | .vstr s => Except.ok [Event.playSound s]
          | _ => Except.error "TypeError"
        else Except.ok [] : Except String (List Event))
      = .ok evs2 ∧ Event.finished ∉ evs2 := by
    cases hse : getKey frame "SoundEffect" with
    | none => exact ⟨[], rfl, by simp⟩
    | some v =>
      rw [hse] at h2
      cases v with
      | vstr s =>
        by_cases ht : pyTruthy (Val.vstr s)
        · exact ⟨[Event.playSound s], by dsimp only; rw [if_pos ht], by simp⟩
        · exact ⟨[], by dsimp only; rw [if_neg ht], by simp⟩
      | vint k =>
        have : pyTruthy (Val.vint k) = false := by simpa using h2
        exact ⟨[], by dsimp only; rw [this]; simp, by simp⟩
      | vnode n =>
        have : pyTruthy (Val.vnode n) = false := by simpa using h2
        exact ⟨[], by dsimp only; rw [this]; simp, by simp⟩
      | vlist m =>
        have : pyTruthy (Val.vlist m) = false := by simpa using h2
        exact ⟨[], by dsimp only; rw [this]; simp, by simp⟩
  obtain ⟨evs2, hevs2, hnf2⟩ := hsound
  refine ⟨(if emits then [Event.frameReady] else []) ++ evs2, ?_, ?_⟩
  · unfold frameEvents
    rw [hem]
    rw [hevs2]
    rw [hz]
  · intro hmem
    rcases List.mem_append.mp hmem with hm | hm
    · by_cases he : emits <;> simp [he] at hm
    · exact hnf2 hm

theorem playFrames_ok (cache : List String) (speed : ℚ) (dd : Val) (flag : ℕ → Bool) :
    ∀ (frames : List Val) (idx : ℕ), frames.all (frameOk dd speed) = true →
      ∃ evs c, playFrames cache speed dd flag frames idx = .ok (evs, c)
        ∧ Event.finished ∉ evs := by
  intro frames
  induction frames with
  | nil => intro idx _; exact ⟨[], 0, rfl, by simp⟩
  | cons f rest ih =>
    intro idx hfr
    simp only [List.all_cons, Bool.and_eq_true] at hfr
    by_cases hfl : flag idx = true
    · cases f with
      | vnode frame =>
        obtain ⟨evs, hevs, hnf⟩ := frameEvents_ok cache speed dd frame hfr.1
        obtain ⟨evs2, c, hrec, hnf2⟩ := ih (idx + 1) hfr.2
        refine ⟨evs ++ evs2, c + 1, ?_, ?_⟩
        · unfold playFrames
          rw [if_pos hfl]
          dsimp only
          rw [hevs, hrec]
        · intro hm
          rcases List.mem_append.mp hm with hmm1 | hmm1
          · exact hnf hmm1
          · exact hnf2 hmm1
      | vint k => simp [frameOk] at hfr
      | vstr s => simp [frameOk] at hfr
      | vlist m => simp [frameOk] at hfr
    · refine ⟨[], 1, ?_, by simp⟩
      unfold playFrames
      rw [if_neg hfl]

theorem getAnimationData_go_ok2 (name : String) (dd : Val) (speed : ℚ) :
    ∀ l : List Val, l.all (animOk dd speed) = true →
      ∃ anim, getAnimationData.go name l = .ok anim
        ∧ (anim = [] ∨ (_asList anim "Frame").all (frameOk dd speed) = true) := by
  intro l
  induction l with
  | nil => intro _; exact ⟨[], rfl, Or.inl rfl⟩
  | cons a rest ih =>
    intro h
    simp only [List.all_cons, Bool.and_eq_true] at h
    cases a with
    | vnode n =>
      by_cases hm : getKey n "id" = some (.vstr name)
      · refine ⟨n, ?_, Or.inr ?_⟩
        · simp [getAnimationData.go, hm]
        · simpa [animOk] using h.1
      · obtain ⟨anim, hg, hok⟩ := ih h.2
        refine ⟨anim, ?_, hok⟩
        simp only [getAnimationData.go]
        rw [if_neg hm]
        exact hg
    | vint k => simp [animOk] at h
    | vstr s => simp [animOk] at h
    | vlist m => simp [animOk] at h

theorem playAnimation_ok (data : Node) (cache : List String) (speed : ℚ) (dd : Val)
    (flag : ℕ → Bool) (name : String) (idx : ℕ)
    (h : (_asList data "Animation").all (animOk dd speed) = true) :
    ∃ evs c, _playAnimation data cache speed dd flag name idx = .ok (evs, c)
      ∧ Event.finished ∉ evs := by
  obtain ⟨anim, hg, hok⟩ := getAnimationData_go_ok2 name dd speed (_asList data "Animation") h
  have hg2 : getAnimationData data name = .ok anim := hg
  have hunf : _playAnimation data cache speed dd flag name idx
      = if anim.isEmpty = true then .ok ([], 0)
        else playFrames cache speed dd flag (_asList anim "Frame") idx := by
    unfold _playAnimation
    rw [hg2]
  rw [hunf]
  by_cases he : anim.isEmpty = true
  · rw [if_pos he]
    exact ⟨[], 0, rfl, by simp⟩
  · rw [if_neg he]
    rcases hok with rfl | hfr
    · simp at he
    · obtain ⟨evs, c, hp, hnf⟩ := playFrames_ok cache speed dd flag (_asList anim "Frame") idx hfr
      exact ⟨evs, c, hp, hnf⟩

theorem animLoop_ok (data : Node) (cache : List String) (speed : ℚ) (dd : Val)
    (flag : ℕ → Bool) (h : (_asList data "Animation").all (animOk dd speed) = true) :
    ∀ (names : List String) (idx : ℕ),
      ∃ evs c, animLoop data cache speed dd flag names idx = .ok (evs, c)
        ∧ Event.finished ∉ evs := by
  intro names
  induction names with
  | nil => intro idx; exact ⟨[], 0, rfl, by simp⟩
  | cons name rest ih =>
    intro idx
    by_cases hfl : flag idx = true
    · obtain ⟨evs, c, hp, hnf⟩ := playAnimation_ok data cache speed dd flag name (idx + 1) h
      obtain ⟨evs2, c2, hrec, hnf2⟩ := ih (idx + 1 + c)
      have hunf : animLoop data cache speed dd flag (name :: rest) idx
          = match animLoop data cache speed dd flag rest (idx + 1 + c) with
            | .error e => .error e
            | .ok (evs2, c2) => .ok (evs ++ evs2, 1 + c + c2) := by
        conv_lhs => unfold animLoop
        rw [if_pos hfl, hp]
      refine ⟨evs ++ evs2, 1 + c + c2, ?_, ?_⟩
      · rw [hunf, hrec]
      · intro hm
        rcases List.mem_append.mp hm with hmm1 | hmm1
        · exact hnf hmm1
        · exact hnf2 hmm1
    · refine ⟨[], 1, ?_, by simp⟩
      unfold animLoop
      rw [if_neg hfl]

theorem outerBounded_ok (data : Node) (anims cache : List String) (speed : ℚ) (dd : Val)
    (cycles : ℤ) (flag : ℕ → Bool)
    (h : (_asList data "Animation").all (animOk dd speed) = true) :
    ∀ (loopCount idx : ℕ),
      ∃ evs, outerBounded data anims cache speed dd cycles flag loopCount idx
          = .ok evs ∧ Event.finished ∉ evs := by
  have H : ∀ (m : ℕ) (loopCount idx : ℕ), (cycles - loopCount).toNat = m →
      ∃ evs, outerBounded data anims cache speed dd cycles flag loopCount idx
        = .ok evs ∧ Event.finished ∉ evs := by
    intro m
    induction m using Nat.strong_induction_on with
    | _ m ihm =>
      intro loopCount idx hm
      by_cases hfl : flag idx = true
      · by_cases hc : (loopCount : ℤ) ≥ cycles
        · refine ⟨[], ?_, by simp⟩
          rw [outerBounded.eq_1, if_pos hfl, if_pos hc]
        · obtain ⟨evs, c, ha, hnf⟩ := animLoop_ok data cache speed dd flag h anims (idx + 1)
          obtain ⟨evs2, hrec, hnf2⟩ := ihm ((cycles - (loopCount + 1)).toNat)
            (by omega) (loopCount + 1) (idx + 1 + c) rfl
          have hstep : outerBounded data anims cache speed dd cycles flag loopCount idx
              = match outerBounded data anims cache speed dd cycles flag
                  (loopCount + 1) (idx + 1 + c) with
                | .error e => .error e
                | .ok evs2 => .ok (evs ++ evs2) := by
            conv_lhs => rw [outerBounded.eq_1]
            rw [if_pos hfl, if_neg hc, ha]
          refine ⟨evs ++ evs2, ?_, ?_⟩
          · rw [hstep, hrec]
          · intro hmem
            rcases List.mem_append.mp hmem with hmm1 | hmm1
            · exact hnf hmm1
            · exact hnf2 hmm1
      · refine ⟨[], ?_, by simp⟩
        rw [outerBounded.eq_1, if_neg hfl]
  intro loopCount idx
  exact H ((cycles - loopCount).toNat) loopCount idx rfl

theorem outerInf_ok (data : Node) (anims cache : List String) (speed : ℚ) (dd : Val)
    (stopAt : ℕ)
    (h : (_asList data "Animation").all (animOk dd speed) = true) :
    ∀ idx : ℕ,
      ∃ evs, outerInf data anims cache speed dd stopAt idx
          = .ok evs ∧ Event.finished ∉ evs := by
  have H : ∀ (m : ℕ) (idx : ℕ), stopAt - idx = m →
      ∃ evs, outerInf data anims cache speed dd stopAt idx
        = .ok evs ∧ Event.finished ∉ evs := by
    intro m
    induction m using Nat.strong_induction_on with
    | _ m ihm =>
      intro idx hm
      by_cases hlt : idx < stopAt
      · obtain ⟨evs, c, ha, hnf⟩ := animLoop_ok data cache speed dd (flagOf stopAt) h
          anims (idx + 1)
        obtain ⟨evs2, hrec, hnf2⟩ := ihm (stopAt - (idx + 1 + c)) (by omega) (idx + 1 + c) rfl
        have hstep : outerInf data anims cache speed dd stopAt idx
            = match outerInf data anims cache speed dd stopAt (idx + 1 + c) with
              | .error e => .error e
              | .ok evs2 => .ok (evs ++ evs2) := by
          conv_lhs => rw [outerInf.eq_1]
          rw [if_pos hlt, ha]
        refine ⟨evs ++ evs2, ?_, ?_⟩
        · rw [hstep, hrec]
        · intro hmem
          rcases List.mem_append.mp hmem with hmm1 | hmm1
          · exact hnf hmm1
          · exact hnf2 hmm1
      · refine ⟨[], ?_, by simp⟩
        rw [outerInf.eq_1, if_neg hlt]
  intro idx
  exact H (stopAt - idx) idx rfl

/-- C8: one `run` invocation emits exactly one `finished` event — never zero
and never more than one — whichever way it ends.  For every document and speed
that are well-formed for playback (`WFplay data speed`: the shape conditions
under which the Python loop cannot raise, including that every frame wait
computes without `TypeError`, `ZeroDivisionError` or the IEEE-double
`OverflowError`), animation-name list and image cache: with any cycle count
other than -1, the run terminates with exactly one `finished` for EVERY
behaviour of the cancellation flag (`runBounded`, arbitrary `flag` stream);
with the unbounded cycle count -1, a run on which `stop()` is eventually
called (the monotone flag `flagOf stopAt`) also terminates with exactly one
`finished` (`runInf`).  A `cycles = -1` run that is never stopped does not
end, which is outside the claim's "whether the run ends by exhausting cycles
or by cancellation". -/
theorem run_emits_finished_exactly_once (data : Node) (anims cache : List String)
    (speed : ℚ) (hWF : WFplay data speed = true) :
    (∀ (cycles : ℤ) (flag : ℕ → Bool), ∃ evs,
        runBounded data anims cache speed cycles flag = .ok evs
        ∧ evs.count Event.finished = 1)
    ∧ (∀ stopAt : ℕ, ∃ evs,
        runInf data anims cache speed stopAt = .ok evs
        ∧ evs.count Event.finished = 1) := by
  simp only [WFplay, Bool.and_eq_true] at hWF
  obtain ⟨hfn, hcd⟩ := hWF
  obtain ⟨dd, hd0, hanim⟩ : ∃ dd, characterDefault data = .ok dd
      ∧ (_asList data "Animation").all (animOk dd speed) = true := by
    cases hg : characterDefault data with
    | error e => rw [hg] at hcd; simp at hcd
    | ok v =>
      rw [hg] at hcd
      dsimp only at hcd
      exact ⟨v, rfl, hcd⟩
  constructor
  · intro cycles flag
    obtain ⟨evs, ho, hnf⟩ := outerBounded_ok data anims cache speed dd cycles flag hanim 0 0
    refine ⟨evs ++ [Event.finished], ?_, ?_⟩
    · unfold runBounded
      rw [if_neg (by simp [hfn])]
      rw [hd0]
      have hstep : (match outerBounded data anims cache speed dd cycles flag 0 0 with
          | .error e => (.error e : Except String (List Event))
          | .ok evs => .ok (evs ++ [Event.finished]))
          = .ok (evs ++ [Event.finished]) := by
        rw [ho]
      exact hstep
    · rw [List.count_append]
      rw [List.count_eq_zero.mpr hnf]
      rfl
  · intro stopAt
    obtain ⟨evs, ho, hnf⟩ := outerInf_ok data anims cache speed dd stopAt hanim 0
    refine ⟨evs ++ [Event.finished], ?_, ?_⟩
    · unfold runInf
      rw [if_neg (by simp [hfn])]
      rw [hd0]
      have hstep : (match outerInf data anims cache speed dd stopAt 0 with
          | .error e => (.error e : Except String (List Event))
          | .ok evs => .ok (evs ++ [Event.finished]))
          = .ok (evs ++ [Event.finished]) := by
        rw [ho]
      exact hstep
    · rw [List.count_append]
      rw [List.count_eq_zero.mpr hnf]
      rfl

/-- Witness for C8: the empty document, one (absent) animation name. -/
theorem run_emits_finished_exactly_once_witness :
    (∃ evs, runBounded [] ["Wave"] [] 1 1 (fun _ => true) = .ok evs
      ∧ evs.count Event.finished = 1)
    ∧ (∃ evs, runInf [] ["Wave"] [] 1 2 = .ok evs ∧ evs.count Event.finished = 1) :=
  ⟨(run_emits_finished_exactly_once [] ["Wave"] [] 1 (by decide)).1 1
      (fun _ => true),
   (run_emits_finished_exactly_once [] ["Wave"] [] 1 (by decide)).2 2⟩

end MSAgent
